import Mathlib

/-!
Verification development for the `url-site-crawler` repository.

The definitions below are a shallow embedding of the Python sources:
`src/application/async_crawler.py` (URL normalization, domain filtering,
the fetch subsystem, per-page processing, the scheduler's frontier state
machine, callback dispatch) and `src/application/file_manager.py`
(link persistence).  Library calls (`urllib.parse.urljoin`,
`urllib.parse.urldefrag`, `urllib.parse.urlparse`) are modelled after
their documented behaviour on the http/https inputs the crawler feeds
them.  The theorems settle the frozen claims about the specification.
-/

namespace Crawler

/-- Boolean test that the first character list is an initial segment of the
second; used to embed Python's `str.startswith`. -/
def listBeginsWith : List Char → List Char → Bool
  | [], _ => true
  | _ :: _, [] => false
  | p :: ps, c :: cs => p == c && listBeginsWith ps cs

/-- Embedding of Python `s.startswith(p)`. -/
def strBeginsWith (p s : String) : Bool :=
  listBeginsWith p.data s.data

/-- Embedding of Python `s.endswith(p)` (used by `FileManager` to pick the
output format from the file extension). -/
def strEndsWith (p s : String) : Bool :=
  listBeginsWith p.data.reverse s.data.reverse

/-- Model of `urllib.parse.urldefrag`: split the URL at the first `#`,
returning the fragment-free part and the fragment. -/
def urldefrag (u : String) : String × String :=
  (⟨u.data.takeWhile (fun c => c != '#')⟩,
   ⟨(u.data.dropWhile (fun c => c != '#')).drop 1⟩)

/-- Helper for `schemeSplit`: scan for the first occurrence of `://`,
returning the characters before it and the characters after it. -/
def schemeSplitAux : List Char → List Char → Option (List Char × List Char)
  | acc, ':' :: '/' :: '/' :: rest => some (acc.reverse, rest)
  | acc, c :: cs => schemeSplitAux (c :: acc) cs
  | _, [] => none

/-- Split a URL of the shape `scheme://rest` into `(scheme, rest)`;
`none` when no `://` occurs.  Models the scheme/netloc split performed by
`urllib.parse.urlparse` on the http/https URLs the crawler handles. -/
def schemeSplit (u : String) : Option (String × String) :=
  match schemeSplitAux [] u.data with
  | some (sch, rest) => some (⟨sch⟩, ⟨rest⟩)
  | none => none

/-- Model of `urlparse(u).netloc` for the URLs the crawler compares:
the authority component (host + port) between `://` and the next
`/`, `?` or `#`; empty when the URL carries no `://`. -/
def netlocOf (u : String) : String :=
  match schemeSplit u with
  | none => ""
  | some (_, rest) => ⟨rest.data.takeWhile (fun c => c != '/' && c != '?' && c != '#')⟩

/-- Helper for `urlHasScheme`: the remaining characters form the tail of a
scheme followed by `:`. -/
def schemeRestOk : List Char → Bool
  | [] => false
  | ':' :: _ => true
  | c :: cs => (c.isAlpha || c.isDigit || c == '+' || c == '-' || c == '.') && schemeRestOk cs

/-- Whether a URL reference carries its own scheme (a letter followed by
scheme characters and a colon), as `urllib.parse.urlparse` detects it. -/
def urlHasScheme (u : String) : Bool :=
  match u.data with
  | [] => false
  | c :: cs => c.isAlpha && schemeRestOk cs

/-- Directory part of a path: everything up to and including the last `/`;
`/` when the path has no slash.  Used for relative-reference merging. -/
def dirOf (p : List Char) : List Char :=
  let r := p.reverse.dropWhile (fun c => c != '/')
  if r.isEmpty then ['/'] else r.reverse

/-- Model of `urllib.parse.urljoin(base, url)` restricted to the cases the
crawler exercises: an http/https base joined with a scheme-relative,
absolute-path, fragment-only, query-only or relative reference.  A
reference carrying its own scheme is returned unchanged; dot-segment
resolution is omitted (not exercised by the properties proved here). -/
def urljoin (base url : String) : String :=
  if url = "" then base
  else if urlHasScheme url then url
  else
    match schemeSplit base with
    | none => url
    | some (scheme, rest) =>
      let netlocL := rest.data.takeWhile (fun c => c != '/' && c != '?' && c != '#')
      let afterNetloc := rest.data.drop netlocL.length
      let pathL := afterNetloc.takeWhile (fun c => c != '?' && c != '#')
      if strBeginsWith "//" url then scheme ++ ":" ++ url
      else if strBeginsWith "/" url then scheme ++ "://" ++ (⟨netlocL⟩ : String) ++ url
      else if strBeginsWith "#" url then (urldefrag base).1 ++ url
      else if strBeginsWith "?" url then
        scheme ++ "://" ++ (⟨netlocL⟩ : String) ++ (⟨pathL⟩ : String) ++ url
      else scheme ++ "://" ++ (⟨netlocL⟩ : String) ++ (⟨dirOf pathL⟩ : String) ++ url

/-- Embedding of `CrawlerConfig.is_valid_url`: the URL must begin with
`http://` or `https://`. -/
def is_valid_url (u : String) : Bool :=
  strBeginsWith "http://" u || strBeginsWith "https://" u

/-- Embedding of the conditional join in `_normalize_url`: when a truthy
base is supplied and the URL is not already http(s)-absolute, resolve it
against the base with `urljoin`; otherwise keep it. -/
def joinBase (url : String) : Option String → String
  | none => url
  | some b =>
    if b = "" then url
    else if strBeginsWith "http://" url || strBeginsWith "https://" url then url
    else urljoin b url

/-- Embedding of `AsyncWebCrawler._normalize_url`: reject empty input and
`mailto:` / `javascript:` / `tel:` / bare-fragment references, resolve a
non-absolute reference against the (truthy) base, strip the fragment, and
validate the result. -/
def _normalize_url (url : String) (base_url : Option String) : Option String :=
  if url = "" then none
  else if strBeginsWith "mailto:" url || strBeginsWith "javascript:" url
      || strBeginsWith "tel:" url || strBeginsWith "#" url then none
  else
    let u2 := (urldefrag (joinBase url base_url)).1
    if is_valid_url u2 then some u2 else none

/-- Embedding of `AsyncWebCrawler.is_same_domain` with the seed URL
(`self.config.url`) made explicit: normalize the candidate against the
seed and compare the netloc components. -/
def is_same_domain (seed url : String) : Bool :=
  if url = "" then false
  else
    match _normalize_url url (some seed) with
    | none => false
    | some v => netlocOf v == netlocOf seed

theorem listBeginsWith_iff (p s : List Char) :
    listBeginsWith p s = true ↔ ∃ t, s = p ++ t := by
  induction p generalizing s with
  | nil => simp [listBeginsWith]
  | cons a ps ih =>
    cases s with
    | nil => simp [listBeginsWith]
    | cons c cs =>
      simp only [listBeginsWith, Bool.and_eq_true, beq_iff_eq, ih, List.cons_append,
        List.cons.injEq]
      constructor
      · rintro ⟨rfl, t, rfl⟩
        exact ⟨t, rfl, rfl⟩
      · rintro ⟨t, h1, h2⟩
        exact ⟨h1.symm, t, h2⟩

theorem strBeginsWith_head_ne (p v : String) (a c : Char) (ps t : List Char)
    (hp : p.data = a :: ps) (hv : v.data = c :: t) (h : a ≠ c) :
    strBeginsWith p v = false := by
  unfold strBeginsWith
  rw [hp, hv]
  show (a == c && listBeginsWith ps t) = false
  have : (a == c) = false := beq_eq_false_iff_ne.mpr h
  rw [this, Bool.false_and]

theorem head_of_valid (v : String) (h : is_valid_url v = true) :
    ∃ t, v.data = 'h' :: t := by
  unfold is_valid_url at h
  rcases Bool.or_eq_true_iff.mp h with h1 | h1
  · obtain ⟨t, ht⟩ := (listBeginsWith_iff _ _).mp h1
    exact ⟨"ttp://".data ++ t, by rw [ht]; rfl⟩
  · obtain ⟨t, ht⟩ := (listBeginsWith_iff _ _).mp h1
    exact ⟨"ttps://".data ++ t, by rw [ht]; rfl⟩

theorem special_false_of_valid (v : String) (h : is_valid_url v = true) :
    (strBeginsWith "mailto:" v || strBeginsWith "javascript:" v
      || strBeginsWith "tel:" v || strBeginsWith "#" v) = false := by
  obtain ⟨t, ht⟩ := head_of_valid v h
  rw [strBeginsWith_head_ne "mailto:" v 'm' 'h' "ailto:".data t rfl ht (by decide),
    strBeginsWith_head_ne "javascript:" v 'j' 'h' "avascript:".data t rfl ht (by decide),
    strBeginsWith_head_ne "tel:" v 't' 'h' "el:".data t rfl ht (by decide),
    strBeginsWith_head_ne "#" v '#' 'h' [] t rfl ht (by decide)]
  rfl

theorem ne_empty_of_valid (v : String) (h : is_valid_url v = true) : ¬ v = "" := by
  obtain ⟨t, ht⟩ := head_of_valid v h
  intro hv
  rw [hv] at ht
  exact absurd ht (by simp)

theorem defrag_fst_noHash (u : String) : '#' ∉ (urldefrag u).1.data := by
  intro hmem
  have := List.mem_takeWhile_imp hmem
  simp at this

theorem defrag_fst_idem (u : String) : (urldefrag (urldefrag u).1).1 = (urldefrag u).1 := by
  show String.mk ((u.data.takeWhile (fun c => c != '#')).takeWhile (fun c => c != '#'))
      = String.mk (u.data.takeWhile (fun c => c != '#'))
  exact congrArg String.mk List.takeWhile_idem

/-- C6: `_normalize_url` rejects `mailto:` / `javascript:` / `tel:` / bare
fragments, every non-`none` result is fragment-free and http(s)-absolute,
and `/page#section` against base `https://example.com/dir/index.html`
normalizes to exactly `https://example.com/page`. -/
theorem normalize_url_spec :
    (∀ url base, (strBeginsWith "mailto:" url || strBeginsWith "javascript:" url
        || strBeginsWith "tel:" url || strBeginsWith "#" url) = true →
        _normalize_url url base = none)
    ∧ (∀ url base v, _normalize_url url base = some v →
        '#' ∉ v.data ∧ is_valid_url v = true)
    ∧ _normalize_url "/page#section" (some "https://example.com/dir/index.html")
        = some "https://example.com/page" := by
  refine ⟨?_, ?_, by decide⟩
  · intro url base h
    by_cases h0 : url = ""
    · simp [_normalize_url, h0]
    · simp [_normalize_url, h0, h]
  · intro url base v h
    simp only [_normalize_url] at h
    split at h
    · exact absurd h (by simp)
    split at h
    · exact absurd h (by simp)
    split at h
    next hvalid =>
      injection h with h'
      exact h' ▸ ⟨defrag_fst_noHash _, hvalid⟩
    · exact absurd h (by simp)

/-- Witness for `normalize_url_spec` at concrete inputs. -/
theorem normalize_url_spec_witness :
    _normalize_url "mailto:a@b" none = none
    ∧ ('#' ∉ ("https://example.com/page" : String).data
        ∧ is_valid_url "https://example.com/page" = true) :=
  ⟨normalize_url_spec.1 "mailto:a@b" none (by decide),
   normalize_url_spec.2.1 "/page#section" (some "https://example.com/dir/index.html")
     "https://example.com/page" normalize_url_spec.2.2⟩

theorem joinBase_of_valid (v : String) (b : Option String)
    (hvalid : is_valid_url v = true) : joinBase v b = v := by
  cases b with
  | none => rfl
  | some bb =>
    show (if bb = "" then v
      else if strBeginsWith "http://" v || strBeginsWith "https://" v then v
      else urljoin bb v) = v
    by_cases hbb : bb = ""
    · rw [if_pos hbb]
    · rw [if_neg hbb]
      have hc : (strBeginsWith "http://" v || strBeginsWith "https://" v) = true := hvalid
      rw [if_pos hc]

/-- C8: normalization is idempotent — whenever `_normalize_url u b` yields
`some v`, running `_normalize_url` again on `v` with the same base yields
`some v` unchanged. -/
theorem normalize_url_idem (u : String) (b : Option String) (v : String)
    (h : _normalize_url u b = some v) : _normalize_url v b = some v := by
  have hparts : is_valid_url v = true ∧ ∃ w, v = (urldefrag w).1 := by
    simp only [_normalize_url] at h
    split at h
    · exact absurd h (by simp)
    split at h
    · exact absurd h (by simp)
    split at h
    next hvalid =>
      injection h with h'
      exact h' ▸ ⟨hvalid, _, rfl⟩
    · exact absurd h (by simp)
  obtain ⟨hvalid, w, hw⟩ := hparts
  have hdf : (urldefrag v).1 = v := by rw [hw]; exact defrag_fst_idem w
  simp only [_normalize_url]
  rw [if_neg (ne_empty_of_valid v hvalid)]
  rw [if_neg (by rw [special_false_of_valid v hvalid]; exact Bool.false_ne_true)]
  rw [joinBase_of_valid v b hvalid, hdf, if_pos hvalid]

/-- Witness for `normalize_url_idem` at a concrete input. -/
theorem normalize_url_idem_witness :
    _normalize_url "https://example.com/page" (some "https://example.com/dir/index.html")
      = some "https://example.com/page" :=
  normalize_url_idem "/page#section" (some "https://example.com/dir/index.html")
    "https://example.com/page" (by decide)

/-- C7: `is_same_domain` is decided purely by netloc (host + port) equality
of the normalized URL against the seed — the scheme is not compared, so
`http://x/a` is same-domain with seed `https://x/` — and every input that
fails to normalize (empty string, rejected scheme) is not same-domain. -/
theorem is_same_domain_spec :
    (∀ seed url v, _normalize_url url (some seed) = some v →
        (is_same_domain seed url = true ↔ netlocOf v = netlocOf seed))
    ∧ (∀ seed url, _normalize_url url (some seed) = none →
        is_same_domain seed url = false)
    ∧ is_same_domain "https://x/" "http://x/a" = true := by
  refine ⟨?_, ?_, by decide⟩
  · intro seed url v h
    have hne : ¬ url = "" := by
      intro h0
      rw [h0] at h
      exact absurd h (by simp [_normalize_url])
    unfold is_same_domain
    rw [if_neg hne, h]
    exact beq_iff_eq
  · intro seed url h
    by_cases h0 : url = ""
    · simp [is_same_domain, h0]
    · unfold is_same_domain
      rw [if_neg h0, h]

/-- Witness for `is_same_domain_spec` at concrete inputs. -/
theorem is_same_domain_spec_witness :
    (is_same_domain "https://x/" "http://x/a" = true ↔ netlocOf "http://x/a" = netlocOf "https://x/")
    ∧ is_same_domain "https://x/" "mailto:a@b" = false :=
  ⟨is_same_domain_spec.1 "https://x/" "http://x/a" "http://x/a" (by decide),
   is_same_domain_spec.2.1 "https://x/" "mailto:a@b" (by decide)⟩

/-- The shared crawl state dictionary created in `crawl_domain_async` and
mutated by `process_page`: `to_visit` (pending), `visited`, and
`in_progress` (in-flight). -/
structure CrawlState where
  to_visit : Finset String
  visited : Finset String
  in_progress : Finset String
deriving DecidableEq

/-- Initial crawl state of `crawl_domain_async`:
`to_visit = {url}`, `visited = {}`, `in_progress = {}`. -/
def initState (seed : String) : CrawlState :=
  ⟨{seed}, ∅, ∅⟩

/-- One iteration of the link-admission loop in `process_page`: add the
link to `to_visit` only when it is in none of the three sets. -/
def admitOne (st : CrawlState) (link : String) : CrawlState :=
  if link ∉ st.visited ∧ link ∉ st.to_visit ∧ link ∉ st.in_progress then
    { st with to_visit := insert link st.to_visit }
  else st

/-- State effect of the whole admission loop of `process_page`. -/
def admitLinksSt (st : CrawlState) (links : List String) : CrawlState :=
  links.foldl admitOne st

/-- One iteration of the admission loop together with the accumulation of
`new_links`, exactly as in the `for link in links` loop of `process_page`. -/
def admitStep (acc : CrawlState × List String) (link : String) :
    CrawlState × List String :=
  if link ∉ acc.1.visited ∧ link ∉ acc.1.to_visit ∧ link ∉ acc.1.in_progress then
    ({ acc.1 with to_visit := insert link acc.1.to_visit }, acc.2 ++ [link])
  else acc

/-- The admission loop of `process_page`: the updated state and the list of
newly discovered links. -/
def admitLinks (st : CrawlState) (links : List String) : CrawlState × List String :=
  links.foldl admitStep (st, [])

/-- Success path of `process_page`: admit the extracted links, then remove
the URL from `in_progress` and add it to `visited`; returns the new state
and `new_links`. -/
def processSuccess (st : CrawlState) (url : String) (links : List String) :
    CrawlState × List String :=
  let r := admitLinks st links
  ({ r.1 with
      in_progress := r.1.in_progress.erase url,
      visited := insert url r.1.visited }, r.2)

/-- Failure path of `process_page` (absent content): remove the URL from
`in_progress` and return the empty link set.  The URL is not added to
`visited`. -/
def processFail (st : CrawlState) (url : String) : CrawlState × List String :=
  ({ st with in_progress := st.in_progress.erase url }, [])

/-- The scheduling-relevant configuration field of `CrawlerConfig`. -/
structure CrawlerCfg where
  max_concurrency : ℕ

/-- Interleaving semantics of `crawl_domain_async` with link graph `L`:
the scheduler pops a pending URL while strictly under the concurrency
limit and moves it to `in_progress`; each spawned `process_page` task
later completes atomically (no await separates its state mutations),
either successfully with the links `L url` or with absent content. -/
inductive Step (cfg : CrawlerCfg) (L : String → List String) :
    CrawlState → CrawlState → Prop where
  | dispatch (s : CrawlState) (url : String) (h1 : url ∈ s.to_visit)
      (h2 : s.in_progress.card < cfg.max_concurrency) :
      Step cfg L s ⟨s.to_visit.erase url, s.visited, insert url s.in_progress⟩
  | succeed (s : CrawlState) (url : String) (h : url ∈ s.in_progress) :
      Step cfg L s (processSuccess s url (L url)).1
  | fail (s : CrawlState) (url : String) (h : url ∈ s.in_progress) :
      Step cfg L s (processFail s url).1

/-- Failure-free executions: only admissions and successful completions. -/
inductive StepNF (cfg : CrawlerCfg) (L : String → List String) :
    CrawlState → CrawlState → Prop where
  | dispatch (s : CrawlState) (url : String) (h1 : url ∈ s.to_visit)
      (h2 : s.in_progress.card < cfg.max_concurrency) :
      StepNF cfg L s ⟨s.to_visit.erase url, s.visited, insert url s.in_progress⟩
  | succeed (s : CrawlState) (url : String) (h : url ∈ s.in_progress) :
      StepNF cfg L s (processSuccess s url (L url)).1

/-- Reachability in the crawl state machine. -/
def Reaches (cfg : CrawlerCfg) (L : String → List String) :
    CrawlState → CrawlState → Prop :=
  Relation.ReflTransGen (Step cfg L)

/-- Guard of the scheduler loop `while to_visit or in_progress`; when it is
false the loop exits and `crawl_state["visited"]` is returned. -/
def crawlLoopContinues (s : CrawlState) : Bool :=
  decide s.to_visit.Nonempty || decide s.in_progress.Nonempty

/-- Union of the three frontier sets. -/
def urlSets (s : CrawlState) : Finset String :=
  s.to_visit ∪ s.visited ∪ s.in_progress

/-- Number of frontier sets a URL belongs to. -/
def memCount (s : CrawlState) (u : String) : ℕ :=
  (if u ∈ s.to_visit then 1 else 0) + (if u ∈ s.visited then 1 else 0)
    + (if u ∈ s.in_progress then 1 else 0)

/-- Pairwise disjointness of the three frontier sets. -/
def Inv (s : CrawlState) : Prop :=
  (∀ u ∈ s.to_visit, u ∉ s.visited) ∧ (∀ u ∈ s.to_visit, u ∉ s.in_progress)
    ∧ (∀ u ∈ s.visited, u ∉ s.in_progress)

theorem admitOne_visited (st : CrawlState) (l : String) :
    (admitOne st l).visited = st.visited := by
  unfold admitOne
  split <;> rfl

theorem admitOne_in_progress (st : CrawlState) (l : String) :
    (admitOne st l).in_progress = st.in_progress := by
  unfold admitOne
  split <;> rfl

theorem admitLinksSt_visited : ∀ (links : List String) (st : CrawlState),
    (admitLinksSt st links).visited = st.visited
  | [], _ => rfl
  | l :: ls, st => by
    show (admitLinksSt (admitOne st l) ls).visited = st.visited
    rw [admitLinksSt_visited ls (admitOne st l), admitOne_visited]

theorem admitLinksSt_in_progress : ∀ (links : List String) (st : CrawlState),
    (admitLinksSt st links).in_progress = st.in_progress
  | [], _ => rfl
  | l :: ls, st => by
    show (admitLinksSt (admitOne st l) ls).in_progress = st.in_progress
    rw [admitLinksSt_in_progress ls (admitOne st l), admitOne_in_progress]

theorem admitOne_urlSets_mono (st : CrawlState) (l : String) :
    urlSets st ⊆ urlSets (admitOne st l) := by
  intro u hu
  unfold admitOne
  split
  · simp only [urlSets, Finset.mem_union, Finset.mem_insert] at hu ⊢
    tauto
  · exact hu

theorem admitOne_to_visit_mem (st : CrawlState) (l u : String) (hu : u ∈ urlSets st) :
    u ∈ (admitOne st l).to_visit ↔ u ∈ st.to_visit := by
  unfold admitOne
  split
  next hcond =>
    simp only [Finset.mem_insert]
    constructor
    · rintro (rfl | h)
      · rcases Finset.mem_union.mp hu with h1 | h1
        · rcases Finset.mem_union.mp h1 with h2 | h2
          · exact h2
          · exact absurd h2 hcond.1
        · exact absurd h1 hcond.2.2
      · exact h
    · exact fun h => Or.inr h
  · exact Iff.rfl

theorem admitLinksSt_to_visit_mem : ∀ (links : List String) (st : CrawlState) (u : String),
    u ∈ urlSets st → (u ∈ (admitLinksSt st links).to_visit ↔ u ∈ st.to_visit)
  | [], _, _, _ => Iff.rfl
  | l :: ls, st, u, hu => by
    show u ∈ (admitLinksSt (admitOne st l) ls).to_visit ↔ u ∈ st.to_visit
    rw [admitLinksSt_to_visit_mem ls (admitOne st l) u (admitOne_urlSets_mono st l hu),
      admitOne_to_visit_mem st l u hu]

theorem admitOne_to_visit_mono (st : CrawlState) (l : String) :
    st.to_visit ⊆ (admitOne st l).to_visit := by
  unfold admitOne
  split
  · exact Finset.subset_insert _ _
  · exact Finset.Subset.refl _

theorem admitLinksSt_to_visit_mono : ∀ (links : List String) (st : CrawlState),
    st.to_visit ⊆ (admitLinksSt st links).to_visit
  | [], _ => Finset.Subset.refl _
  | l :: ls, st =>
    (admitOne_to_visit_mono st l).trans (admitLinksSt_to_visit_mono ls (admitOne st l))

theorem admitOne_to_visit_subset (st : CrawlState) (l : String) :
    (admitOne st l).to_visit ⊆ insert l st.to_visit := by
  unfold admitOne
  split
  · exact Finset.Subset.refl _
  · exact Finset.subset_insert _ _

theorem admitLinksSt_to_visit_subset : ∀ (links : List String) (st : CrawlState),
    (admitLinksSt st links).to_visit ⊆ st.to_visit ∪ links.toFinset
  | [], st => by simp [admitLinksSt]
  | l :: ls, st => by
    show (admitLinksSt (admitOne st l) ls).to_visit ⊆ _
    refine (admitLinksSt_to_visit_subset ls (admitOne st l)).trans ?_
    intro u hu
    rcases Finset.mem_union.mp hu with h | h
    · have := admitOne_to_visit_subset st l h
      rcases Finset.mem_insert.mp this with rfl | h2
      · simp
      · exact Finset.mem_union_left _ h2
    · simp only [List.toFinset_cons, Finset.mem_union, Finset.mem_insert]
      right
      right
      exact h

theorem admitLinksSt_to_visit_cases : ∀ (links : List String) (st : CrawlState) (u : String),
    u ∈ (admitLinksSt st links).to_visit →
    u ∈ st.to_visit ∨ (u ∉ st.visited ∧ u ∉ st.in_progress)
  | [], _, _, h => Or.inl h
  | l :: ls, st, u, h => by
    have h' := admitLinksSt_to_visit_cases ls (admitOne st l) u h
    rw [admitOne_visited, admitOne_in_progress] at h'
    rcases h' with h' | h'
    · unfold admitOne at h'
      split at h'
      next hcond =>
        rcases Finset.mem_insert.mp h' with rfl | h''
        · exact Or.inr ⟨hcond.1, hcond.2.2⟩
        · exact Or.inl h''
      · exact Or.inl h'
    · exact Or.inr h'

theorem admitStep_fst (acc : CrawlState × List String) (l : String) :
    (admitStep acc l).1 = admitOne acc.1 l := by
  unfold admitStep admitOne
  by_cases h : l ∉ acc.1.visited ∧ l ∉ acc.1.to_visit ∧ l ∉ acc.1.in_progress
  · rw [if_pos h, if_pos h]
  · rw [if_neg h, if_neg h]

theorem admitLinks_foldl_fst : ∀ (links : List String) (st : CrawlState) (log : List String),
    (List.foldl admitStep (st, log) links).1 = admitLinksSt st links
  | [], _, _ => rfl
  | l :: ls, st, log => by
    show (List.foldl admitStep (admitStep (st, log) l) ls).1 = admitLinksSt (admitOne st l) ls
    calc (List.foldl admitStep (admitStep (st, log) l) ls).1
        = admitLinksSt (admitStep (st, log) l).1 ls :=
          admitLinks_foldl_fst ls (admitStep (st, log) l).1 (admitStep (st, log) l).2
      _ = admitLinksSt (admitOne st l) ls := by rw [admitStep_fst]

theorem admitLinks_fst (st : CrawlState) (links : List String) :
    (admitLinks st links).1 = admitLinksSt st links :=
  admitLinks_foldl_fst links st []

theorem processSuccess_fst (st : CrawlState) (url : String) (links : List String) :
    (processSuccess st url links).1 =
      ⟨(admitLinksSt st links).to_visit, insert url st.visited,
        st.in_progress.erase url⟩ := by
  simp only [processSuccess]
  rw [admitLinks_fst]
  rw [show (admitLinksSt st links).visited = st.visited from admitLinksSt_visited links st,
    show (admitLinksSt st links).in_progress = st.in_progress from
      admitLinksSt_in_progress links st]

theorem inv_init (seed : String) : Inv (initState seed) :=
  ⟨fun u _ => Finset.not_mem_empty u, fun u _ => Finset.not_mem_empty u,
   fun u h => absurd h (Finset.not_mem_empty u)⟩

theorem inv_step {cfg : CrawlerCfg} {L : String → List String} {s t : CrawlState}
    (hinv : Inv s) (hstep : Step cfg L s t) : Inv t := by
  cases hstep with
  | dispatch url h1 h2 =>
    refine ⟨?_, ?_, ?_⟩
    · intro u hu
      exact hinv.1 u (Finset.mem_of_mem_erase hu)
    · intro u hu
      have h3 := Finset.mem_of_mem_erase hu
      have hne : u ≠ url := (Finset.mem_erase.mp hu).1
      intro hc
      rcases Finset.mem_insert.mp hc with rfl | hc2
      · exact hne rfl
      · exact hinv.2.1 u h3 hc2
    · intro u hu hc
      rcases Finset.mem_insert.mp hc with rfl | hc2
      · exact hinv.1 u h1 hu
      · exact hinv.2.2 u hu hc2
  | succeed url h =>
    rw [processSuccess_fst]
    refine ⟨?_, ?_, ?_⟩
    · intro u hu hc
      rcases admitLinksSt_to_visit_cases (L url) s u hu with h' | h'
      · rcases Finset.mem_insert.mp hc with rfl | hc2
        · exact hinv.2.1 u h' h
        · exact hinv.1 u h' hc2
      · rcases Finset.mem_insert.mp hc with rfl | hc2
        · exact h'.2 h
        · exact h'.1 hc2
    · intro u hu hc
      have hc2 := Finset.mem_of_mem_erase hc
      rcases admitLinksSt_to_visit_cases (L url) s u hu with h' | h'
      · exact hinv.2.1 u h' hc2
      · exact h'.2 hc2
    · intro u hu hc
      have hcne := (Finset.mem_erase.mp hc).1
      have hc2 := Finset.mem_of_mem_erase hc
      rcases Finset.mem_insert.mp hu with rfl | hu2
      · exact hcne rfl
      · exact hinv.2.2 u hu2 hc2
  | fail url h =>
    refine ⟨fun u hu => hinv.1 u hu, ?_, ?_⟩
    · intro u hu hc
      exact hinv.2.1 u hu (Finset.mem_of_mem_erase hc)
    · intro u hu hc
      exact hinv.2.2 u hu (Finset.mem_of_mem_erase hc)

theorem inv_reaches {cfg : CrawlerCfg} {L : String → List String} {seed : String}
    {s : CrawlState} (h : Reaches cfg L (initState seed) s) : Inv s := by
  induction h with
  | refl => exact inv_init seed
  | tail hab hbc ih => exact inv_step ih hbc

theorem memCount_le_one_of_inv (s : CrawlState) (hinv : Inv s) (u : String) :
    memCount s u ≤ 1 := by
  by_cases h1 : u ∈ s.to_visit
  · have h2 : u ∉ s.visited := hinv.1 u h1
    have h3 : u ∉ s.in_progress := hinv.2.1 u h1
    simp [memCount, h1, h2, h3]
  · by_cases h2 : u ∈ s.visited
    · have h3 : u ∉ s.in_progress := hinv.2.2 u h2
      simp [memCount, h1, h2, h3]
    · by_cases h3 : u ∈ s.in_progress <;> simp [memCount, h1, h2, h3]

theorem memCount_eq_one_of_mem (s : CrawlState) (u : String) (hinv : Inv s)
    (hu : u ∈ urlSets s) : memCount s u = 1 := by
  rcases Finset.mem_union.mp hu with h | h3
  · rcases Finset.mem_union.mp h with h1 | h2
    · simp [memCount, h1, hinv.1 u h1, hinv.2.1 u h1]
    · have h1 : u ∉ s.to_visit := fun hc => hinv.1 u hc h2
      simp [memCount, h1, h2, hinv.2.2 u h2]
  · have h1 : u ∉ s.to_visit := fun hc => hinv.2.1 u hc h3
    have h2 : u ∉ s.visited := fun hc => hinv.2.2 u hc h3
    simp [memCount, h1, h2, h3]

theorem memCount_processSuccess (s : CrawlState) (url u : String) (links : List String)
    (hinv : Inv s) (hurl : url ∈ s.in_progress) (hu : u ∈ urlSets s) :
    memCount (processSuccess s url links).1 u = 1 := by
  rw [processSuccess_fst]
  by_cases huu : u = url
  · subst huu
    have h1 : u ∉ s.to_visit := fun hc => hinv.2.1 u hc hurl
    have h3 : u ∉ (admitLinksSt s links).to_visit := by
      rw [admitLinksSt_to_visit_mem links s u hu]
      exact h1
    simp [memCount, h3, Finset.mem_insert_self, Finset.not_mem_erase]
  · have hmem : u ∈ (admitLinksSt s links).to_visit ↔ u ∈ s.to_visit :=
      admitLinksSt_to_visit_mem links s u hu
    have hv : u ∈ insert url s.visited ↔ u ∈ s.visited := by
      simp [Finset.mem_insert, huu]
    have hip : u ∈ s.in_progress.erase url ↔ u ∈ s.in_progress := by
      simp [Finset.mem_erase, huu]
    have hcount : memCount s u = 1 := memCount_eq_one_of_mem s u hinv hu
    simp only [memCount] at hcount ⊢
    simp only [hmem, hv, hip]
    exact hcount

theorem card_reaches {cfg : CrawlerCfg} {L : String → List String} {seed : String}
    {s : CrawlState} (h : Reaches cfg L (initState seed) s) :
    s.in_progress.card ≤ cfg.max_concurrency := by
  induction h with
  | refl => simp [initState]
  | tail hab hbc ih =>
    cases hbc with
    | dispatch url h1 h2 =>
      exact le_trans (Finset.card_insert_le url _) h2
    | succeed url h =>
      rw [processSuccess_fst]
      exact le_trans Finset.card_erase_le ih
    | fail url h =>
      exact le_trans Finset.card_erase_le ih

theorem urlSets_mono_stepNF {cfg : CrawlerCfg} {L : String → List String}
    {s t : CrawlState} (h : StepNF cfg L s t) : urlSets s ⊆ urlSets t := by
  cases h with
  | dispatch url h1 h2 =>
    intro u hu
    simp only [urlSets, Finset.mem_union, Finset.mem_erase, Finset.mem_insert] at hu ⊢
    by_cases huu : u = url
    · exact Or.inr (Or.inl huu)
    · rcases hu with (h3 | h3) | h3
      · exact Or.inl (Or.inl ⟨huu, h3⟩)
      · exact Or.inl (Or.inr h3)
      · exact Or.inr (Or.inr h3)
  | succeed url h =>
    rw [processSuccess_fst]
    intro u hu
    simp only [urlSets, Finset.mem_union, Finset.mem_erase, Finset.mem_insert] at hu ⊢
    by_cases huu : u = url
    · exact Or.inl (Or.inr (Or.inl huu))
    · rcases hu with (h3 | h3) | h3
      · exact Or.inl (Or.inl (admitLinksSt_to_visit_mono (L url) s h3))
      · exact Or.inl (Or.inr (Or.inr h3))
      · exact Or.inr ⟨huu, h3⟩

theorem crawlLoopContinues_eq_false (s : CrawlState) :
    crawlLoopContinues s = false ↔ s.to_visit = ∅ ∧ s.in_progress = ∅ := by
  simp [crawlLoopContinues, Finset.not_nonempty_iff_eq_empty]

theorem urlSets_of_done (s : CrawlState) (h : crawlLoopContinues s = false) :
    urlSets s = s.visited := by
  obtain ⟨h1, h2⟩ := (crawlLoopContinues_eq_false s).mp h
  simp [urlSets, h1, h2]

theorem no_step_of_done {cfg : CrawlerCfg} {L : String → List String}
    (s t : CrawlState) (h : crawlLoopContinues s = false) : ¬ Step cfg L s t := by
  obtain ⟨h1, h2⟩ := (crawlLoopContinues_eq_false s).mp h
  intro hstep
  cases hstep with
  | dispatch url hu hc =>
    rw [h1] at hu
    exact Finset.not_mem_empty url hu
  | succeed url hu =>
    rw [h2] at hu
    exact Finset.not_mem_empty url hu
  | fail url hu =>
    rw [h2] at hu
    exact Finset.not_mem_empty url hu

/-- All three frontier sets are contained in the URL universe `U`. -/
def InU (U : Finset String) (s : CrawlState) : Prop :=
  s.to_visit ⊆ U ∧ s.visited ⊆ U ∧ s.in_progress ⊆ U

theorem inU_init {U : Finset String} {seed : String} (hseed : seed ∈ U) :
    InU U (initState seed) :=
  ⟨Finset.singleton_subset_iff.mpr hseed, Finset.empty_subset U, Finset.empty_subset U⟩

theorem inU_step {cfg : CrawlerCfg} {L : String → List String} {U : Finset String}
    {s t : CrawlState} (hclosed : ∀ u ∈ U, (L u).toFinset ⊆ U)
    (hU : InU U s) (h : Step cfg L s t) : InU U t := by
  cases h with
  | dispatch url h1 h2 =>
    exact ⟨(Finset.erase_subset _ _).trans hU.1, hU.2.1,
      Finset.insert_subset_iff.mpr ⟨hU.1 h1, hU.2.2⟩⟩
  | succeed url h =>
    rw [processSuccess_fst]
    refine ⟨?_, ?_, ?_⟩
    · exact (admitLinksSt_to_visit_subset _ _).trans
        (Finset.union_subset hU.1 (hclosed url (hU.2.2 h)))
    · exact Finset.insert_subset_iff.mpr ⟨hU.2.2 h, hU.2.1⟩
    · exact (Finset.erase_subset _ _).trans hU.2.2
  | fail url h =>
    exact ⟨hU.1, hU.2.1, (Finset.erase_subset _ _).trans hU.2.2⟩

/-- Termination measure for the scheduler loop over a finite universe. -/
def crawlMeasure (U : Finset String) (s : CrawlState) : ℕ :=
  (U.card - s.visited.card) * (3 * U.card + 1) + 2 * s.to_visit.card + s.in_progress.card

theorem crawlMeasure_lt_dispatch (U : Finset String) (s : CrawlState) (url : String)
    (h1 : url ∈ s.to_visit) :
    crawlMeasure U ⟨s.to_visit.erase url, s.visited, insert url s.in_progress⟩ <
      crawlMeasure U s := by
  simp only [crawlMeasure]
  rw [Finset.card_erase_of_mem h1]
  have hip := Finset.card_insert_le url s.in_progress
  have htv1 : 1 ≤ s.to_visit.card := Finset.card_pos.mpr ⟨url, h1⟩
  set X := (U.card - s.visited.card) * (3 * U.card + 1)
  omega

theorem crawlMeasure_lt_fail (U : Finset String) (s : CrawlState) (url : String)
    (h : url ∈ s.in_progress) :
    crawlMeasure U (processFail s url).1 < crawlMeasure U s := by
  simp only [crawlMeasure, processFail]
  rw [Finset.card_erase_of_mem h]
  have h1 : 1 ≤ s.in_progress.card := Finset.card_pos.mpr ⟨url, h⟩
  set X := (U.card - s.visited.card) * (3 * U.card + 1)
  omega

theorem crawlMeasure_lt_succeed (U : Finset String) (s : CrawlState) (url : String)
    (links : List String) (hU : InU U s) (hinv : Inv s) (h : url ∈ s.in_progress)
    (hlinks : links.toFinset ⊆ U) :
    crawlMeasure U (processSuccess s url links).1 < crawlMeasure U s := by
  rw [processSuccess_fst]
  have hvn : url ∉ s.visited := fun hc => hinv.2.2 url hc h
  have hvc : (insert url s.visited).card = s.visited.card + 1 :=
    Finset.card_insert_of_not_mem hvn
  have hvU : insert url s.visited ⊆ U := Finset.insert_subset_iff.mpr ⟨hU.2.2 h, hU.2.1⟩
  have hvcU : s.visited.card + 1 ≤ U.card := hvc ▸ Finset.card_le_card hvU
  have htvc : (admitLinksSt s links).to_visit.card ≤ U.card :=
    Finset.card_le_card ((admitLinksSt_to_visit_subset links s).trans
      (Finset.union_subset hU.1 hlinks))
  have hipc : (s.in_progress.erase url).card ≤ U.card :=
    Finset.card_le_card ((Finset.erase_subset _ _).trans hU.2.2)
  simp only [crawlMeasure]
  rw [hvc]
  have hsplit : U.card - s.visited.card = (U.card - (s.visited.card + 1)) + 1 := by
    omega
  rw [hsplit, add_mul, one_mul]
  set Y := (U.card - (s.visited.card + 1)) * (3 * U.card + 1)
  omega

theorem crawlMeasure_step {cfg : CrawlerCfg} {L : String → List String}
    {U : Finset String} {s t : CrawlState} (hclosed : ∀ u ∈ U, (L u).toFinset ⊆ U)
    (hU : InU U s) (hinv : Inv s) (h : Step cfg L s t) :
    crawlMeasure U t < crawlMeasure U s := by
  cases h with
  | dispatch url h1 h2 => exact crawlMeasure_lt_dispatch U s url h1
  | succeed url h =>
    exact crawlMeasure_lt_succeed U s url (L url) hU hinv h (hclosed url (hU.2.2 h))
  | fail url h => exact crawlMeasure_lt_fail U s url h

/-- C3: in every reachable crawl state each URL belongs to at most one of
the three frontier sets; the admission loop adds a candidate link to
`to_visit` only when it is absent from all three sets (membership in
`to_visit` is unchanged for any URL already in some set); and a URL
already present in some set that is discovered again by a successful
`process_page` step still appears in the union exactly once afterwards. -/
theorem frontier_membership_spec :
    (∀ (cfg : CrawlerCfg) (L : String → List String) (seed : String) (s : CrawlState),
        Reaches cfg L (initState seed) s → ∀ u, memCount s u ≤ 1)
    ∧ (∀ (s : CrawlState) (links : List String) (u : String), u ∈ urlSets s →
        (u ∈ (admitLinks s links).1.to_visit ↔ u ∈ s.to_visit))
    ∧ (∀ (cfg : CrawlerCfg) (L : String → List String) (seed : String)
        (s : CrawlState) (url u : String), Reaches cfg L (initState seed) s →
        url ∈ s.in_progress → u ∈ urlSets s →
        memCount (processSuccess s url (L url)).1 u = 1) := by
  refine ⟨?_, ?_, ?_⟩
  · intro cfg L seed s h u
    exact memCount_le_one_of_inv s (inv_reaches h) u
  · intro s links u hu
    rw [admitLinks_fst]
    exact admitLinksSt_to_visit_mem links s u hu
  · intro cfg L seed s url u h hurl hu
    exact memCount_processSuccess s url u (L url) (inv_reaches h) hurl hu

/-- Witness for `frontier_membership_spec` at concrete inputs. -/
theorem frontier_membership_spec_witness :
    memCount (initState "https://a") "https://a" ≤ 1
    ∧ ("https://a" ∈ (admitLinks (initState "https://a") ["https://a"]).1.to_visit
        ↔ "https://a" ∈ (initState "https://a").to_visit)
    ∧ memCount (processSuccess
        ⟨({"https://a"} : Finset String).erase "https://a", ∅,
          insert "https://a" ∅⟩ "https://a" []).1 "https://a" = 1 :=
  ⟨frontier_membership_spec.1 ⟨1⟩ (fun _ => []) "https://a" _
      Relation.ReflTransGen.refl "https://a",
   frontier_membership_spec.2.1 (initState "https://a") ["https://a"] "https://a"
      (by decide),
   frontier_membership_spec.2.2 ⟨1⟩ (fun _ => []) "https://a" _ "https://a" "https://a"
      (Relation.ReflTransGen.single
        (Step.dispatch (initState "https://a") "https://a" (by decide) (by decide)))
      (by decide) (by decide)⟩

/-- C4: in every reachable crawl state the number of in-flight URLs is at
most the configured concurrency limit (the scheduler admits only while
strictly below it); and along any failure-free execution every URL ever in
some frontier set ends in `visited` once the loop's exit condition holds. -/
theorem concurrency_limit_spec :
    (∀ (cfg : CrawlerCfg) (L : String → List String) (seed : String) (s : CrawlState),
        Reaches cfg L (initState seed) s →
        s.in_progress.card ≤ cfg.max_concurrency)
    ∧ (∀ (cfg : CrawlerCfg) (L : String → List String) (s t : CrawlState),
        Relation.ReflTransGen (StepNF cfg L) s t →
        crawlLoopContinues t = false → urlSets s ⊆ t.visited) := by
  constructor
  · intro cfg L seed s h
    exact card_reaches h
  · intro cfg L s t h
    have hmono : urlSets s ⊆ urlSets t := by
      induction h with
      | refl => exact Finset.Subset.refl _
      | tail hab hbc ih => exact ih.trans (urlSets_mono_stepNF hbc)
    intro hdone
    rw [urlSets_of_done t hdone] at hmono
    exact hmono

/-- Witness for `concurrency_limit_spec` at concrete inputs. -/
theorem concurrency_limit_spec_witness :
    (initState "https://a").in_progress.card ≤ 2
    ∧ urlSets ⟨∅, {"https://a"}, ∅⟩ ⊆ (⟨∅, {"https://a"}, ∅⟩ : CrawlState).visited :=
  ⟨concurrency_limit_spec.1 ⟨2⟩ (fun _ => []) "https://a" _ Relation.ReflTransGen.refl,
   concurrency_limit_spec.2 ⟨2⟩ (fun _ => []) ⟨∅, {"https://a"}, ∅⟩ _
     Relation.ReflTransGen.refl (by decide)⟩

/-- C5: over a finite closed link graph every execution of the scheduler
step relation is finite; the loop guard `while to_visit or in_progress` is
false exactly when both `to_visit` and `in_progress` are empty; at that
point the union of the three sets is exactly `visited` (the returned
result) and no further step is possible. -/
theorem termination_spec (cfg : CrawlerCfg) (L : String → List String)
    (U : Finset String) (seed : String) (hseed : seed ∈ U)
    (hclosed : ∀ u ∈ U, (L u).toFinset ⊆ U) :
    (∀ f : ℕ → CrawlState, f 0 = initState seed →
        (∀ n, Step cfg L (f n) (f (n + 1))) → False)
    ∧ (∀ s : CrawlState, crawlLoopContinues s = false ↔
        (s.to_visit = ∅ ∧ s.in_progress = ∅))
    ∧ (∀ s : CrawlState, crawlLoopContinues s = false → urlSets s = s.visited)
    ∧ (∀ s t : CrawlState, crawlLoopContinues s = false → ¬ Step cfg L s t) := by
  refine ⟨?_, crawlLoopContinues_eq_false, urlSets_of_done,
    fun s t h => no_step_of_done s t h⟩
  intro f h0 hstep
  have hkeep : ∀ n, Inv (f n) ∧ InU U (f n) := by
    intro n
    induction n with
    | zero =>
      rw [h0]
      exact ⟨inv_init seed, inU_init hseed⟩
    | succ n ih => exact ⟨inv_step ih.1 (hstep n), inU_step hclosed ih.2 (hstep n)⟩
  have hdec : ∀ n, crawlMeasure U (f (n + 1)) < crawlMeasure U (f n) :=
    fun n => crawlMeasure_step hclosed (hkeep n).2 (hkeep n).1 (hstep n)
  have hbound : ∀ n, crawlMeasure U (f n) + n ≤ crawlMeasure U (f 0) := by
    intro n
    induction n with
    | zero => omega
    | succ n ih =>
      have := hdec n
      omega
  have := hbound (crawlMeasure U (f 0) + 1)
  omega

/-- Witness for `termination_spec` at concrete inputs. -/
theorem termination_spec_witness :
    crawlLoopContinues ⟨∅, ∅, ∅⟩ = false ↔
      ((⟨∅, ∅, ∅⟩ : CrawlState).to_visit = ∅ ∧ (⟨∅, ∅, ∅⟩ : CrawlState).in_progress = ∅) :=
  (termination_spec ⟨1⟩ (fun _ => []) {"https://a"} "https://a" (by decide)
    (by decide)).2.1 ⟨∅, ∅, ∅⟩

/-- C1 (counterexample): a URL whose fetch yields absent content is NOT
marked visited.  With seed `https://example.com/dead` whose only fetch
fails, the crawl reaches the terminal state (loop guard false) with
`visited` empty — the failed URL is missing from the final visited set. -/
theorem failed_url_not_visited_counterexample :
    Reaches ⟨1⟩ (fun _ => []) (initState "https://example.com/dead") ⟨∅, ∅, ∅⟩
    ∧ crawlLoopContinues ⟨∅, ∅, ∅⟩ = false
    ∧ "https://example.com/dead" ∉ (⟨∅, ∅, ∅⟩ : CrawlState).visited := by
  refine ⟨?_, by decide, by decide⟩
  have s1 : Step (⟨1⟩ : CrawlerCfg) (fun _ => []) (initState "https://example.com/dead")
      ⟨(initState "https://example.com/dead").to_visit.erase "https://example.com/dead",
        (initState "https://example.com/dead").visited,
        insert "https://example.com/dead" (initState "https://example.com/dead").in_progress⟩ :=
    Step.dispatch _ "https://example.com/dead" (by decide) (by decide)
  have s2 : Step (⟨1⟩ : CrawlerCfg) (fun _ => [])
      ⟨(initState "https://example.com/dead").to_visit.erase "https://example.com/dead",
        (initState "https://example.com/dead").visited,
        insert "https://example.com/dead" (initState "https://example.com/dead").in_progress⟩
      (processFail
        ⟨(initState "https://example.com/dead").to_visit.erase "https://example.com/dead",
          (initState "https://example.com/dead").visited,
          insert "https://example.com/dead" (initState "https://example.com/dead").in_progress⟩
        "https://example.com/dead").1 :=
    Step.fail _ "https://example.com/dead" (by decide)
  have heq : (processFail
      ⟨(initState "https://example.com/dead").to_visit.erase "https://example.com/dead",
        (initState "https://example.com/dead").visited,
        insert "https://example.com/dead" (initState "https://example.com/dead").in_progress⟩
      "https://example.com/dead").1 = (⟨∅, ∅, ∅⟩ : CrawlState) := by decide
  exact Relation.ReflTransGen.head s1 (heq ▸ Relation.ReflTransGen.single s2)

/-- C1 (amended): on absent content the `process_page` task removes the URL
from `in_progress` without adding it to `visited` (the other two sets are
unchanged) and contributes zero links, so the URL ends in none of the
three frontier sets. -/
theorem failed_url_dropped (s : CrawlState) (url : String) (h : url ∈ s.in_progress) :
    (processFail s url).1.visited = s.visited
    ∧ url ∉ (processFail s url).1.in_progress
    ∧ (processFail s url).1.to_visit = s.to_visit
    ∧ (processFail s url).2 = [] := by
  refine ⟨rfl, ?_, rfl, rfl⟩
  exact Finset.not_mem_erase url s.in_progress

/-- Witness for `failed_url_dropped` at a concrete input. -/
theorem failed_url_dropped_witness :
    (processFail ⟨∅, ∅, {"https://a"}⟩ "https://a").1.visited = (∅ : Finset String)
    ∧ "https://a" ∉ (processFail ⟨∅, ∅, {"https://a"}⟩ "https://a").1.in_progress
    ∧ (processFail ⟨∅, ∅, {"https://a"}⟩ "https://a").1.to_visit = (∅ : Finset String)
    ∧ (processFail ⟨∅, ∅, {"https://a"}⟩ "https://a").2 = [] :=
  failed_url_dropped ⟨∅, ∅, {"https://a"}⟩ "https://a" (by decide)

/-- Outcome of one physical `session.get` request. -/
inductive AttemptResult where
  | response (status : ℕ) (body : String)
  | timeout
  | transportError (msg : String)

/-- Embedding of `AsyncWebCrawler._fetch_with_retry`.  The server's
behaviour is a function from the number of requests already performed to
the outcome of the next request; `made` counts the `session.get` calls
executed so far.  The Python body performs exactly one `session.get` and
returns in every branch — the `retry_count` parameter is only logged,
never used to recurse, and no retry loop exists anywhere in the function. -/
def _fetch_with_retry (server : ℕ → AttemptResult) (url : String)
    (retry_count : ℕ) (made : ℕ) : (String × Option String) × ℕ :=
  match server made with
  | .response status body =>
    if status = 200 then ((url, some body), made + 1)
    else ((url, none), made + 1)
  | .timeout => ((url, none), made + 1)
  | .transportError _ => ((url, none), made + 1)

/-- Embedding of `AsyncWebCrawler.fetch_page_async`: one call of
`_fetch_with_retry(session, url, 0)` (its catch-all handler returns
`(url, None)` and performs no further request). -/
def fetch_page_async (server : ℕ → AttemptResult) (url : String) (made : ℕ) :
    (String × Option String) × ℕ :=
  _fetch_with_retry server url 0 made

/-- An attempt that yields no content: a non-200 status, a timeout, or a
transport error. -/
def attemptFails : AttemptResult → Prop
  | .response status _ => status ≠ 200
  | .timeout => True
  | .transportError _ => True

/-- C2 (counterexample): with a server returning status 500 on every
request and the spec's example retry ceiling of 2, the claim predicts
`2 + 1 = 3` fetch attempts before reporting absent; the code performs
exactly one request. -/
theorem retry_ceiling_counterexample :
    fetch_page_async (fun _ => .response 500 "") "https://example.com/dead" 0
      = (("https://example.com/dead", none), 1)
    ∧ (1 : ℕ) ≠ 2 + 1 :=
  ⟨rfl, by decide⟩

/-- C2 (amended): the fetch subsystem performs exactly one physical request
per `fetch_page_async` call — `_fetch_with_retry` never retries, whatever
its `retry_count` argument — and reports the URL absent as soon as that
single attempt fails. -/
theorem single_fetch_attempt (server : ℕ → AttemptResult) (url : String)
    (retry_count made : ℕ) (hfail : attemptFails (server made)) :
    (_fetch_with_retry server url retry_count made).2 = made + 1
    ∧ (_fetch_with_retry server url retry_count made).1 = (url, none)
    ∧ fetch_page_async server url made = ((url, none), made + 1) := by
  have key : ∀ rc : ℕ, _fetch_with_retry server url rc made = ((url, none), made + 1) := by
    intro rc
    unfold _fetch_with_retry
    cases hsv : server made with
    | response status body =>
      have hst : status ≠ 200 := by
        rw [hsv] at hfail
        exact hfail
      simp [hsv, hst]
    | timeout => simp [hsv]
    | transportError m => simp [hsv]
  refine ⟨?_, ?_, ?_⟩
  · rw [key retry_count]
  · rw [key retry_count]
  · show _fetch_with_retry server url 0 made = ((url, none), made + 1)
    exact key 0

/-- Witness for `single_fetch_attempt` at a concrete input. -/
theorem single_fetch_attempt_witness :
    (_fetch_with_retry (fun _ => AttemptResult.response 500 "")
        "https://example.com/dead" 5 0).2 = 0 + 1
    ∧ (_fetch_with_retry (fun _ => AttemptResult.response 500 "")
        "https://example.com/dead" 5 0).1 = ("https://example.com/dead", none)
    ∧ fetch_page_async (fun _ => AttemptResult.response 500 "")
        "https://example.com/dead" 0 = (("https://example.com/dead", none), 0 + 1) :=
  single_fetch_attempt (fun _ => AttemptResult.response 500 "")
    "https://example.com/dead" 5 0 (by show (500 : ℕ) ≠ 200; decide)

/-- A user page callback; a raising callback is `Except.error`. -/
def PageCb : Type := String → List String → Except String Unit

/-- A user link callback; a raising callback is `Except.error`. -/
def LinkCb : Type := String → Except String Unit

/-- Embedding of `AsyncWebCrawler._process_page_callback`: prefer the
directly-set slot, else the config slot; each invocation is wrapped in
`try/except` which logs the exception and returns normally. -/
def _process_page_callback (direct cfgCb : Option PageCb) (url : String)
    (links : List String) : Except String Unit :=
  match direct with
  | some f =>
    match f url links with
    | .ok _ => .ok ()
    | .error _ => .ok ()
  | none =>
    match cfgCb with
    | some f =>
      match f url links with
      | .ok _ => .ok ()
      | .error _ => .ok ()
    | none => .ok ()

/-- The guarded invocation of `config.link_callback` inside the admission
loop of `process_page`: `try: callback(link) except: log`. -/
def invoke_link_callback (lcb : Option LinkCb) (link : String) : Except String Unit :=
  match lcb with
  | none => .ok ()
  | some f =>
    match f link with
    | .ok _ => .ok ()
    | .error _ => .ok ()

/-- One iteration of the admission loop with the link callback invoked
after insertion; an uncaught callback exception would propagate as
`Except.error` and abort the rest of `process_page`. -/
def admitStepCb (lcb : Option LinkCb) (acc : CrawlState × List String)
    (link : String) : Except String (CrawlState × List String) :=
  if link ∉ acc.1.visited ∧ link ∉ acc.1.to_visit ∧ link ∉ acc.1.in_progress then
    match invoke_link_callback lcb link with
    | .ok _ => .ok ({ acc.1 with to_visit := insert link acc.1.to_visit }, acc.2 ++ [link])
    | .error e => .error e
  else .ok acc

/-- The `for link in links` loop of `process_page` with possible exception
propagation. -/
def admitLoopCb (lcb : Option LinkCb) :
    CrawlState × List String → List String → Except String (CrawlState × List String)
  | acc, [] => .ok acc
  | acc, l :: ls =>
    match admitStepCb lcb acc l with
    | .error e => .error e
    | .ok acc2 => admitLoopCb lcb acc2 ls

/-- Success path of `process_page` with callback dispatch made explicit:
the page callback runs first, then the admission loop with per-link
callbacks, then the URL moves from `in_progress` to `visited`. -/
def process_page_success (direct cfgCb : Option PageCb) (lcb : Option LinkCb)
    (s : CrawlState) (url : String) (links : List String) :
    Except String (CrawlState × List String) :=
  match _process_page_callback direct cfgCb url links with
  | .error e => .error e
  | .ok _ =>
    match admitLoopCb lcb (s, []) links with
    | .error e => .error e
    | .ok r =>
      .ok ({ r.1 with
              in_progress := r.1.in_progress.erase url,
              visited := insert url r.1.visited }, r.2)

theorem _process_page_callback_ok (direct cfgCb : Option PageCb) (url : String)
    (links : List String) : _process_page_callback direct cfgCb url links = .ok () := by
  unfold _process_page_callback
  cases direct with
  | some f => cases h : f url links <;> simp [h]
  | none =>
    cases cfgCb with
    | some f => cases h : f url links <;> simp [h]
    | none => rfl

theorem invoke_link_callback_ok (lcb : Option LinkCb) (link : String) :
    invoke_link_callback lcb link = .ok () := by
  unfold invoke_link_callback
  cases lcb with
  | none => rfl
  | some f => cases h : f link <;> simp [h]

theorem admitStepCb_eq (lcb : Option LinkCb) (acc : CrawlState × List String)
    (link : String) : admitStepCb lcb acc link = .ok (admitStep acc link) := by
  unfold admitStepCb admitStep
  by_cases h : link ∉ acc.1.visited ∧ link ∉ acc.1.to_visit ∧ link ∉ acc.1.in_progress
  · rw [if_pos h, if_pos h, invoke_link_callback_ok]
  · rw [if_neg h, if_neg h]

theorem admitLoopCb_eq (lcb : Option LinkCb) : ∀ (links : List String)
    (acc : CrawlState × List String),
    admitLoopCb lcb acc links = .ok (List.foldl admitStep acc links)
  | [], _ => rfl
  | l :: ls, acc => by
    show (match admitStepCb lcb acc l with
      | Except.error e => Except.error e
      | Except.ok acc2 => admitLoopCb lcb acc2 ls) =
        Except.ok (List.foldl admitStep acc (l :: ls))
    rw [admitStepCb_eq]
    exact admitLoopCb_eq lcb ls (admitStep acc l)

/-- C9: callback exceptions never propagate — both the page-callback
dispatcher and the guarded link-callback invocation return normally for
every (possibly raising) callback — and the success path of `process_page`
performs exactly the frontier transitions of the callback-free reference
`processSuccess`, with the same new links, whatever the callbacks do. -/
theorem callback_exception_spec :
    (∀ (direct cfgCb : Option PageCb) (url : String) (links : List String),
        _process_page_callback direct cfgCb url links = Except.ok ())
    ∧ (∀ (lcb : Option LinkCb) (link : String),
        invoke_link_callback lcb link = Except.ok ())
    ∧ (∀ (direct cfgCb : Option PageCb) (lcb : Option LinkCb) (s : CrawlState)
        (url : String) (links : List String),
        process_page_success direct cfgCb lcb s url links =
          Except.ok (processSuccess s url links)) := by
  refine ⟨_process_page_callback_ok, invoke_link_callback_ok, ?_⟩
  intro direct cfgCb lcb s url links
  unfold process_page_success
  rw [_process_page_callback_ok, admitLoopCb_eq]
  rfl

/-- Abstract outcomes of the file-system and serialization primitives used
by `FileManager.append_link`: which operations raise, whether the output
file exists, its size, and the result of parsing it as JSON. -/
structure FsWorld where
  dirExists : Bool
  makedirsOk : Bool
  fileExists : Bool
  fileSize : ℕ
  writeEmptyJsonOk : Bool
  jsonLoad : Except String (List String)
  tempWriteOk : Bool
  moveOk : Bool
  openAppendOk : Bool
  csvWriteOk : Bool

/-- Python `os.path.dirname(path)` is non-empty (so `makedirs` may run)
exactly when the path contains a directory separator. -/
def pathHasDir (path : String) : Bool :=
  path.data.contains '/'

/-- The `os.makedirs` guard at the top of `append_link`. -/
def makedirsIfNeeded (w : FsWorld) (path : String) : Except String Unit :=
  if pathHasDir path && !w.dirExists then
    if w.makedirsOk then Except.ok () else Except.error "makedirs"
  else Except.ok ()

/-- Body of `FileManager._append_json` before its `except` clause: ensure
the file exists with an empty array, `json.load` it (which raises on a
malformed file), append the link, dump to a temporary file and move it
into place.  Returns the written array. -/
def _append_json_body (w : FsWorld) (link : String) : Except String (List String) :=
  match (if !w.fileExists || w.fileSize == 0 then
      (if w.writeEmptyJsonOk then Except.ok () else Except.error "write")
    else Except.ok ()) with
  | .error e => .error e
  | .ok _ =>
    match w.jsonLoad with
    | .error e => .error e
    | .ok data =>
      if w.tempWriteOk then
        if w.moveOk then .ok (data ++ [link]) else .error "move"
      else .error "dump"

/-- Embedding of `FileManager._append_json`: the body is wrapped in
`try/except Exception` which logs the error and returns normally. -/
def _append_json (w : FsWorld) (link : String) : Except String Unit :=
  match _append_json_body w link with
  | .ok _ => .ok ()
  | .error _ => .ok ()

/-- Embedding of `FileManager._append_csv`: open for append, write the
header when the file is new, write the row; wrapped in
`try/except Exception` which logs and returns normally. -/
def _append_csv (w : FsWorld) (link : String) : Except String Unit :=
  match (if w.openAppendOk then
      (if w.csvWriteOk then Except.ok () else Except.error "csv")
    else Except.error "open") with
  | .ok _ => .ok ()
  | .error _ => .ok ()

/-- The plain-text branch of `append_link`: open for append and write the
line; not guarded locally, so an error reaches `append_link`'s handler. -/
def appendTextRaw (w : FsWorld) (link : String) : Except String Unit :=
  if w.openAppendOk then .ok () else .error "io"

/-- Embedding of `FileManager.append_link`: create the directory if
needed, dispatch on the path extension, and catch every exception from the
whole body, logging it and returning normally. -/
def append_link (w : FsWorld) (link path : String) : Except String Unit :=
  match (match makedirsIfNeeded w path with
    | Except.error e => Except.error e
    | Except.ok _ =>
      if strEndsWith ".json" path then _append_json w link
      else if strEndsWith ".csv" path then _append_csv w link
      else appendTextRaw w link) with
  | Except.ok _ => Except.ok ()
  | Except.error _ => Except.ok ()

/-- C10: `FileManager.append_link` never raises — for every world of
file-system outcomes (failing directory creation, I/O errors, malformed
JSON files) and every link and output path it returns normally, while the
internal operations genuinely can fail (witnessed by a failing JSON dump),
so a persistence failure is silent at this public interface. -/
theorem append_link_silent :
    (∀ (w : FsWorld) (link path : String), append_link w link path = Except.ok ())
    ∧ _append_json_body ⟨true, true, true, 1, true, Except.ok [], false, true, true, true⟩
        "https://a" = Except.error "dump" := by
  constructor
  · intro w link path
    unfold append_link
    split <;> rfl
  · rfl

end Crawler
